import Mathlib

set_option maxRecDepth 200000

/-!
# Verification of the personal-information-manager core

Shallow embedding of the fuzzy command-suggestion subsystem
(`src/intelligent_command.py`), the birthday-recurrence calculation and the
contact-record operations (`src/address_book.py`) of the repository, together
with theorems settling the specification claims about them.

Python strings are modelled as `List Char` (`Word`); Python `set` objects that
are only ever observed through membership are modelled as lists observed
through membership (for phone sets, which are also compared, we use `Finset`).
Python `datetime.date` values are modelled as explicit year/month/day triples
with Python's lexicographic order; `datetime.now().date()` is modelled as an
explicit `today` parameter.
-/

/-- Python strings modelled as lists of characters. -/
abbrev Word := List Char

/-- `letters = 'abcdefghijklmnopqrstuvwxyz-'` from `variants`. -/
def letters : Word := "abcdefghijklmnopqrstuvwxyz-".toList

/-- `splits = [(word[:i], word[i:]) for i in range(len(word) + 1)]`. -/
def splits (word : Word) : List (Word × Word) :=
  (List.range (word.length + 1)).map fun i => (word.take i, word.drop i)

/-- `deletes = [L + R[1:] for L, R in splits if R]`. -/
def deletes (word : Word) : List Word :=
  ((splits word).filter fun p => !p.2.isEmpty).map fun p => p.1 ++ p.2.tail

/-- `transposes = [L + R[1] + R[0] + R[2:] for L, R in splits if len(R) > 1]`,
the `len(R) > 1` guard and the indexing expressed by a pattern match. -/
def transposes (word : Word) : List Word :=
  (splits word).filterMap fun p =>
    match p.2 with
    | a :: b :: r => some (p.1 ++ b :: a :: r)
    | _ => none

/-- `replaces = [L + c + R[1:] for L, R in splits if R for c in letters]`. -/
def replaces (word : Word) : List Word :=
  ((splits word).filter fun p => !p.2.isEmpty).flatMap fun p =>
    letters.map fun c => p.1 ++ c :: p.2.tail

/-- `inserts = [L + c + R for L, R in splits for c in letters]`. -/
def inserts (word : Word) : List Word :=
  (splits word).flatMap fun p => letters.map fun c => p.1 ++ c :: p.2

/-- `variants(word)` returns `set(deletes + transposes + replaces + inserts)`.
The Python `set` is only ever observed through membership tests, so it is
modelled as the concatenated list observed through membership. -/
def variants (word : Word) : List Word :=
  deletes word ++ transposes word ++ replaces word ++ inserts word

/-- `distance(s1, s2) = abs(len(s1) - len(s2))`. -/
def distance (s1 s2 : Word) : Nat :=
  ((s1.length : Int) - (s2.length : Int)).natAbs

/-! ### Spec-side characterisations of the four edit classes -/

/-- `x` arises from `w` by removing exactly one character. -/
def IsDeletion (w x : Word) : Prop :=
  ∃ u c v, w = u ++ c :: v ∧ x = u ++ v

/-- `x` arises from `w` by swapping one adjacent pair of characters. -/
def IsTransposition (w x : Word) : Prop :=
  ∃ u a b v, w = u ++ a :: b :: v ∧ x = u ++ b :: a :: v

/-- `x` arises from `w` by replacing one position with an alphabet character. -/
def IsReplacement (w x : Word) : Prop :=
  ∃ u a v c, w = u ++ a :: v ∧ c ∈ letters ∧ x = u ++ c :: v

/-- `x` arises from `w` by inserting one alphabet character at some gap. -/
def IsInsertion (w x : Word) : Prop :=
  ∃ u v c, w = u ++ v ∧ c ∈ letters ∧ x = u ++ c :: v

/-! ### Membership lemmas for the edit classes -/

theorem mem_splits {word : Word} {p : Word × Word} :
    p ∈ splits word ↔ word = p.1 ++ p.2 := by
  unfold splits
  simp only [List.mem_map, List.mem_range]
  constructor
  · rintro ⟨i, _, rfl⟩
    exact (List.take_append_drop i word).symm
  · rintro h
    refine ⟨p.1.length, ?_, ?_⟩
    · have : p.1.length ≤ word.length := by
        rw [h, List.length_append]; omega
      omega
    · rw [h]
      simp

theorem mem_deletes {word x : Word} :
    x ∈ deletes word ↔ IsDeletion word x := by
  unfold deletes IsDeletion
  simp only [List.mem_map, List.mem_filter, mem_splits]
  constructor
  · rintro ⟨⟨L, R⟩, ⟨rfl, hR⟩, rfl⟩
    match R, hR with
    | c :: v, _ => exact ⟨L, c, v, rfl, rfl⟩
  · rintro ⟨u, c, v, rfl, rfl⟩
    exact ⟨(u, c :: v), ⟨rfl, by simp⟩, rfl⟩

theorem mem_transposes {word x : Word} :
    x ∈ transposes word ↔ IsTransposition word x := by
  unfold transposes IsTransposition
  simp only [List.mem_filterMap, mem_splits]
  constructor
  · rintro ⟨⟨L, R⟩, rfl, hx⟩
    match R, hx with
    | a :: b :: r, hx =>
      exact ⟨L, a, b, r, rfl, by simpa using hx.symm⟩
  · rintro ⟨u, a, b, v, rfl, rfl⟩
    exact ⟨(u, a :: b :: v), rfl, rfl⟩

theorem mem_replaces {word x : Word} :
    x ∈ replaces word ↔ IsReplacement word x := by
  unfold replaces IsReplacement
  simp only [List.mem_flatMap, List.mem_filter, List.mem_map, mem_splits]
  constructor
  · rintro ⟨⟨L, R⟩, ⟨rfl, hR⟩, c, hc, rfl⟩
    match R, hR with
    | a :: v, _ => exact ⟨L, a, v, c, rfl, hc, rfl⟩
  · rintro ⟨u, a, v, c, rfl, hc, rfl⟩
    exact ⟨(u, a :: v), ⟨rfl, by simp⟩, c, hc, rfl⟩

theorem mem_inserts {word x : Word} :
    x ∈ inserts word ↔ IsInsertion word x := by
  unfold inserts IsInsertion
  simp only [List.mem_flatMap, List.mem_map, mem_splits]
  constructor
  · rintro ⟨⟨L, R⟩, rfl, c, hc, rfl⟩
    exact ⟨L, R, c, rfl, hc, rfl⟩
  · rintro ⟨u, v, c, rfl, hc, rfl⟩
    exact ⟨(u, v), rfl, c, hc, rfl⟩

theorem mem_variants {word x : Word} :
    x ∈ variants word ↔
      IsDeletion word x ∨ IsTransposition word x ∨
      IsReplacement word x ∨ IsInsertion word x := by
  unfold variants
  simp [List.mem_append, mem_deletes, mem_transposes, mem_replaces,
    mem_inserts, or_assoc]

theorem variants_ne_nil (word : Word) : variants word ≠ [] := by
  have h : ('a' :: word) ∈ variants word := by
    rw [mem_variants]
    exact Or.inr (Or.inr (Or.inr ⟨[], word, 'a', rfl, by decide, rfl⟩))
  intro hnil
  rw [hnil] at h
  exact (List.not_mem_nil _) h

theorem self_mem_variants {word : Word} (hne : word ≠ [])
    (halpha : ∀ c ∈ word, c ∈ letters) : word ∈ variants word := by
  match word, hne with
  | a :: rest, _ =>
    rw [mem_variants]
    refine Or.inr (Or.inr (Or.inl ⟨[], a, rest, a, rfl, ?_, rfl⟩))
    exact halpha a (by simp)

/-! ### The command registry

`COMMANDS = address_book_commands.keys() | note_book_commands.keys() |
common_commands.keys()`.  The three registries are the dict literals at the
bottom of `handlers_address_book.py`, `handlers_note_book.py` and
`handlers_common.py`; their 29 keys are pairwise distinct.  Python takes the
union as a `set`, whose iteration order is unspecified; we fix the
concatenation order of the three registries.  No theorem below depends on
this order except through the stable sort's tie-break, and every concrete
evaluation used by a claim is tie-free. -/

def address_book_commands : List Word :=
  ["add-contact", "change-name", "change-phone", "show-phone", "add-phone",
   "remove-phone", "all-contacts", "add-birthday", "show-birthday",
   "update-birthday", "birthdays", "search-contact", "delete-contact",
   "update-email", "update-address"].map String.toList

def note_book_commands : List Word :=
  ["add-note", "all-notes", "search-tag", "search-note", "update-note",
   "delete-note", "add-tag", "delete-tag", "update-tag"].map String.toList

def common_commands : List Word :=
  ["hello", "help", "description", "close", "exit"].map String.toList

def COMMANDS : List Word :=
  address_book_commands ++ note_book_commands ++ common_commands

/-- The candidate collection loop of `suggest_command`:
`possible_matches` holds every registered command whose variant set contains
the lowered input, in registry iteration order
(`any(lower_misspelled == variant for variant in variants_set)` is a
membership test). -/
def possible_matches (w : Word) : List Word :=
  COMMANDS.filter fun c => decide (w ∈ variants c)

/-- `suggest_command(misspelled)` from `intelligent_command.py`: lower-case
the input; return it on an exact registry hit; otherwise stable-sort the
candidates by `distance` (Python's `list.sort` is stable; `insertionSort`
is the stable sort) and return the first candidate, or `none` when there is
none (`possible_matches[0] if possible_matches else None`). -/
def suggest_command (misspelled : Word) : Option Word :=
  let lower_misspelled := misspelled.map Char.toLower
  if lower_misspelled ∈ COMMANDS then some lower_misspelled
  else
    ((possible_matches lower_misspelled).insertionSort fun a b =>
      distance lower_misspelled a ≤ distance lower_misspelled b).head?

/-- The suggestion procedure as the specification describes it (CommandSuggester,
spec §4.3): lower-case; an exact match yields the single-element list; otherwise
the FULL list of matching commands, ranked ascending by length distance with the
stable tie-break.  Used to compare the spec's contract with the code's. -/
def suggest_spec (input : Word) : List Word :=
  let w := input.map Char.toLower
  if w ∈ COMMANDS then [w]
  else
    (COMMANDS.filter fun c => decide (w ∈ variants c)).insertionSort fun a b =>
      distance w a ≤ distance w b

/-! ### Sorting lemmas -/

theorem insertionSort_head_min (key : Word → Nat) (l : List Word) (c : Word)
    (h : ((l.insertionSort fun a b => key a ≤ key b).head? = some c)) :
    c ∈ l ∧ ∀ x ∈ l, key c ≤ key x := by
  haveI htot : IsTotal Word fun a b => key a ≤ key b := ⟨fun a b => Nat.le_total _ _⟩
  haveI htr : IsTrans Word fun a b => key a ≤ key b :=
    ⟨fun _ _ _ h1 h2 => Nat.le_trans h1 h2⟩
  have hs := List.sorted_insertionSort (fun a b => key a ≤ key b) l
  have hperm := List.perm_insertionSort (fun a b => key a ≤ key b) l
  cases hsort : l.insertionSort fun a b => key a ≤ key b with
  | nil => rw [hsort] at h; simp at h
  | cons hd tl =>
    rw [hsort] at h
    simp only [List.head?_cons, Option.some.injEq] at h
    subst h
    rw [hsort] at hs hperm
    constructor
    · exact hperm.mem_iff.mp (by simp)
    · intro x hx
      have hx' : x ∈ hd :: tl := hperm.mem_iff.mpr hx
      rcases List.mem_cons.mp hx' with hx' | hx'
      · exact hx' ▸ Nat.le_refl _
      · exact List.rel_of_sorted_cons hs x hx'

theorem insertionSort_head_none (key : Word → Nat) (l : List Word) :
    ((l.insertionSort fun a b => key a ≤ key b).head? = none) ↔ l = [] := by
  have hperm := List.perm_insertionSort (fun a b => key a ≤ key b) l
  rw [List.head?_eq_none_iff]
  constructor
  · intro h; exact (hperm.symm.trans (h ▸ List.Perm.refl _)).eq_nil
  · intro h; subst h; exact hperm.eq_nil

/-! ### Dates

`datetime.date` modelled as a year/month/day triple of naturals.  Python
compares dates lexicographically; subtraction and `weekday()` go through the
proleptic-Gregorian ordinal (`date.toordinal`, day 1 = 1 Jan of year 1, a
Monday).  Python's library bounds the year by 9999; the claims concern the
calendar arithmetic, so years are left unbounded here. -/

structure PyDate where
  year : Nat
  month : Nat
  day : Nat
deriving DecidableEq, Repr

/-- `Birthday.is_leap_year`:
`year % 4 == 0 and (year % 100 != 0 or year % 400 == 0)`. -/
def is_leap_year (year : Nat) : Bool :=
  year % 4 == 0 && (year % 100 != 0 || year % 400 == 0)

/-- Number of days of month `month` in year `year`. -/
def daysInMonth (year month : Nat) : Nat :=
  if month = 2 then (if is_leap_year year then 29 else 28)
  else if month = 4 ∨ month = 6 ∨ month = 9 ∨ month = 11 then 30
  else 31

/-- A value representable as a Python `datetime.date`. -/
def ValidDate (d : PyDate) : Prop :=
  1 ≤ d.year ∧ 1 ≤ d.month ∧ d.month ≤ 12 ∧ 1 ≤ d.day ∧
    d.day ≤ daysInMonth d.year d.month

instance (d : PyDate) : Decidable (ValidDate d) := by
  unfold ValidDate; exact inferInstance

/-- Python's `<` on dates: lexicographic on (year, month, day). -/
def dateLT (a b : PyDate) : Prop :=
  a.year < b.year ∨ (a.year = b.year ∧
    (a.month < b.month ∨ (a.month = b.month ∧ a.day < b.day)))

/-- Python's `<=` on dates: lexicographic on (year, month, day). -/
def dateLE (a b : PyDate) : Prop :=
  a.year < b.year ∨ (a.year = b.year ∧
    (a.month < b.month ∨ (a.month = b.month ∧ a.day ≤ b.day)))

instance (a b : PyDate) : Decidable (dateLT a b) := by
  unfold dateLT; exact inferInstance

instance (a b : PyDate) : Decidable (dateLE a b) := by
  unfold dateLE; exact inferInstance

/-- Days before 1 January of year `y` since the proleptic-Gregorian epoch. -/
def daysBeforeYear (y : Nat) : Nat :=
  365 * (y - 1) + (y - 1) / 4 - (y - 1) / 100 + (y - 1) / 400

/-- Days before the first of month `m` within a year of leapness matching
`year` (cumulative month lengths). -/
def daysBeforeMonth (year m : Nat) : Nat :=
  (match m with
   | 3 => 59 | 4 => 90 | 5 => 120 | 6 => 151 | 7 => 181 | 8 => 212
   | 9 => 243 | 10 => 273 | 11 => 304 | 12 => 334
   | 2 => 31 | _ => 0) +
  (if 3 ≤ m ∧ is_leap_year year then 1 else 0)

/-- `date.toordinal()`: 1 Jan of year 1 is day 1. -/
def toOrdinal (d : PyDate) : Nat :=
  daysBeforeYear d.year + daysBeforeMonth d.year d.month + d.day

/-- `date.weekday()`: Monday = 0 ... Sunday = 6. -/
def weekday (d : PyDate) : Nat :=
  (toOrdinal d + 6) % 7

/-- `d - t` for Python dates, in days (`(d - t).days`). -/
def dayDiff (d t : PyDate) : Int :=
  (toOrdinal d : Int) - (toOrdinal t : Int)

/-- `d + timedelta(days=1)` for a valid date. -/
def nextDay (d : PyDate) : PyDate :=
  if d.day < daysInMonth d.year d.month then ⟨d.year, d.month, d.day + 1⟩
  else if d.month < 12 then ⟨d.year, d.month + 1, 1⟩
  else ⟨d.year + 1, 1, 1⟩

/-- `Birthday.is_29th_february` (the stored value is never `None` once the
`Birthday` constructor has succeeded). -/
def is_29th_february (b : PyDate) : Bool :=
  b.month == 2 && b.day == 29

/-- The year-resolution part of `Birthday.next_congratulation_date`
(everything before the weekend adjustment), with the stored birthday `b`
and the current day `today` (`datetime.now().date()`) explicit:
candidate this year, with the Feb-29 → Feb-28 substitution in non-leap
years, rolled forward one year when strictly in the past, recomputing the
Feb-29 substitution for the new year.  `date.replace` keeps the fields it
is not given. -/
def resolvedCandidate (b today : PyDate) : PyDate :=
  let next_birthday :=
    if is_29th_february b ∧ ¬ is_leap_year today.year then
      ⟨today.year, b.month, 28⟩
    else
      ⟨today.year, b.month, b.day⟩
  if dateLT next_birthday today then
    if is_29th_february b then
      if is_leap_year (today.year + 1) then
        ⟨today.year + 1, next_birthday.month, 29⟩
      else
        ⟨today.year + 1, next_birthday.month, 28⟩
    else
      ⟨today.year + 1, next_birthday.month, next_birthday.day⟩
  else next_birthday

/-- The weekend adjustment at the end of `next_congratulation_date`:
Saturday (+2 days) and Sunday (+1 day) shift to Monday. -/
def weekendAdjust (d : PyDate) : PyDate :=
  if weekday d = 5 then nextDay (nextDay d)
  else if weekday d = 6 then nextDay d
  else d

/-- `Birthday.next_congratulation_date`, with the stored birthday and
`today` explicit. -/
def next_congratulation_date (b today : PyDate) : PyDate :=
  weekendAdjust (resolvedCandidate b today)

/-! ### Order lemmas -/

theorem dateLE_refl (a : PyDate) : dateLE a a := by
  unfold dateLE; omega

theorem dateLE_trans {a b c : PyDate} (h1 : dateLE a b) (h2 : dateLE b c) :
    dateLE a c := by
  unfold dateLE at *; omega

theorem dateLE_of_not_dateLT {a b : PyDate} (h : ¬ dateLT a b) :
    dateLE b a := by
  unfold dateLT at h; unfold dateLE; omega

theorem dateLE_nextDay (d : PyDate) : dateLE d (nextDay d) := by
  unfold nextDay
  split_ifs
  all_goals simp [dateLE]

theorem dateLE_weekendAdjust (d : PyDate) : dateLE d (weekendAdjust d) := by
  unfold weekendAdjust
  split
  · exact dateLE_trans (dateLE_nextDay d) (dateLE_nextDay (nextDay d))
  · split
    · exact dateLE_nextDay d
    · exact dateLE_refl d

theorem dateLE_resolvedCandidate (b today : PyDate) :
    dateLE today (resolvedCandidate b today) := by
  simp only [resolvedCandidate]
  split_ifs
  all_goals first
    | exact dateLE_of_not_dateLT (by assumption)
    | simp [dateLE]

/-! ### Contact records, phone and birthday validation -/

/-- `value.isdigit()` (ASCII digits; empty string is not a digit string). -/
def isdigit (s : String) : Bool :=
  !s.data.isEmpty && s.data.all Char.isDigit

/-- The `Phone` constructor check:
`if not value.isdigit() or len(value) != 10: raise ValidationError`. -/
def phone_valid (s : String) : Bool :=
  isdigit s && s.data.length == 10

/-- `ds.foldl`-style numeric value of a digit string. -/
def natOfDigits (ds : Word) : Nat :=
  ds.foldl (fun n c => n * 10 + (c.toNat - 48)) 0

/-- Splitting a character list at the literal dots of the `"%d.%m.%Y"`
format. -/
def splitOnDotAux : Word → Word → List Word
  | [], acc => [acc.reverse]
  | c :: rest, acc =>
    if c = '.' then acc.reverse :: splitOnDotAux rest []
    else splitOnDotAux rest (c :: acc)

def splitOnDot (w : Word) : List Word :=
  splitOnDotAux w []

/-- `datetime.strptime(value, "%d.%m.%Y").date()` as a partial parse:
CPython's `_strptime` matches `%d` against one or two digits valued 1..31,
`%m` against one or two digits valued 1..12 and `%Y` against exactly four
digits, with the dots literal and the whole string consumed, then the
`datetime` constructor requires the day to exist in the given month and the
year to be at least `MINYEAR = 1`.  `none` models the raised `ValueError`
(wrapped by the `Birthday` constructor into a `ValidationError`). -/
def strptime_dmY (s : String) : Option PyDate :=
  match splitOnDot s.data with
  | [ds, ms, ys] =>
    if (1 ≤ ds.length ∧ ds.length ≤ 2 ∧ ds.all Char.isDigit = true) ∧
       (1 ≤ ms.length ∧ ms.length ≤ 2 ∧ ms.all Char.isDigit = true) ∧
       (ys.length = 4 ∧ ys.all Char.isDigit = true) then
      let d := natOfDigits ds
      let m := natOfDigits ms
      let y := natOfDigits ys
      if 1 ≤ d ∧ d ≤ 31 ∧ 1 ≤ m ∧ m ≤ 12 ∧ 1 ≤ y ∧ d ≤ daysInMonth y m then
        some ⟨y, m, d⟩
      else none
    else none
  | _ => none

/-- A `Record` from `address_book.py`.  `Phone` and `Email` objects compare
and hash by value, so the phone set is a `Finset` of strings. -/
structure PyRecord where
  name : String
  phones : Finset String
  birthday : Option PyDate
  email : Option String
  address : Option String
deriving DecidableEq

/-- `Record.edit_phone(old_phone, new_phone)`.  Python mutates `self.phones`
in place and signals failure by raising; the model returns the record state
observable after the call (or at the raise) together with the raised
message, mirroring the statement order: validate the old phone, check
membership, construct the new phone (raising before any mutation), then
`add` the new phone and `remove` the old one. -/
def edit_phone (r : PyRecord) (old_phone new_phone : String) :
    PyRecord × Option String :=
  if ¬ phone_valid old_phone then (r, some "Invalid phone number")
  else if old_phone ∉ r.phones then (r, some "Old phone number not found")
  else if ¬ phone_valid new_phone then (r, some "Invalid phone number")
  else ({ r with phones := (insert new_phone r.phones).erase old_phone }, none)

/-- `Record.add_birthday(birthday)`: `self.birthday = Birthday(birthday)`;
the constructor raises (leaving the field untouched) exactly when
`strptime` fails. -/
def add_birthday (r : PyRecord) (birthday : String) :
    PyRecord × Option String :=
  match strptime_dmY birthday with
  | none => (r, some "Invalid date format. Use DD.MM.YYYY")
  | some b => ({ r with birthday := some b }, none)

/-- `AddressBook.get_upcoming_birthdays(days_ahead)` with `today`
(`datetime.now().date()`) explicit: iterate the records in insertion order,
skip those without a birthday, and keep `(name, congratulation_day)` when
`0 <= (congratulation_day - today).days <= days_ahead`. -/
def get_upcoming_birthdays (records : List PyRecord) (days_ahead : Int)
    (today : PyDate) : List (String × PyDate) :=
  records.filterMap fun record =>
    match record.birthday with
    | none => none
    | some b =>
      let congratulation_day := next_congratulation_date b today
      if 0 ≤ dayDiff congratulation_day today ∧
         dayDiff congratulation_day today ≤ days_ahead then
        some (record.name, congratulation_day)
      else none

/-! ## Claim theorems -/

/-- C3: for every word, `variants(word)` contains exactly the union of the
single-character deletions, the adjacent transpositions, the replacements of
each position by each of the 27 alphabet characters, and the insertions of
each of the 27 characters at each gap; it is non-empty for non-empty input,
and for the empty string it consists only of the 27 single-character
insertions. -/
theorem variants_exact_characterisation (word : Word) :
    (∀ x, x ∈ variants word ↔
       IsDeletion word x ∨ IsTransposition word x ∨
       IsReplacement word x ∨ IsInsertion word x)
  ∧ (word ≠ [] → variants word ≠ [])
  ∧ (∀ x, x ∈ variants ([] : Word) ↔ ∃ c ∈ letters, x = [c]) := by
  refine ⟨fun x => mem_variants, fun _ => variants_ne_nil word, fun x => ?_⟩
  rw [mem_variants]
  constructor
  · rintro (⟨u, c, v, h, _⟩ | ⟨u, a, b, v, h, _⟩ |
            ⟨u, a, v, c, h, _, _⟩ | ⟨u, v, c, h, hc, rfl⟩)
    · exact absurd h (by simp)
    · exact absurd h (by simp)
    · exact absurd h (by simp)
    · obtain ⟨rfl, rfl⟩ := List.append_eq_nil.mp h.symm
      exact ⟨c, hc, rfl⟩
  · rintro ⟨c, hc, rfl⟩
    exact Or.inr (Or.inr (Or.inr ⟨[], [], c, rfl, hc, rfl⟩))

/-- Witness for C3 at the concrete word `"help"`. -/
theorem variants_exact_characterisation_witness :
    ("help".toList : Word) ≠ [] ∧ variants "help".toList ≠ [] :=
  ⟨by decide, (variants_exact_characterisation "help".toList).2.1 (by decide)⟩

/-- C5: every non-empty word over the lowercase-plus-hyphen alphabet is an
element of its own variant set (obtained by a same-character replacement). -/
theorem self_mem_variants_claim (w : Word) (hne : w ≠ [])
    (halpha : ∀ c ∈ w, c ∈ letters) : w ∈ variants w :=
  self_mem_variants hne halpha

/-- Witness for C5 at the concrete word `"help"`. -/
theorem self_mem_variants_claim_witness :
    ("help".toList : Word) ∈ variants "help".toList :=
  self_mem_variants_claim "help".toList (by decide) (by decide)

/-- C1 counterexample: on input `"helo"` both `"help"` (distance 0) and
`"hello"` (distance 1) match, so the ranked list of every matching command
is `["help", "hello"]`; the code returns only the single best match
`"help"` (`possible_matches[0] if possible_matches else None`), not the
list. -/
theorem suggest_single_vs_list_counterexample :
    (suggest_command "helo".toList).toList = ["help".toList]
  ∧ suggest_spec "helo".toList = ["help".toList, "hello".toList]
  ∧ (suggest_command "helo".toList).toList ≠ suggest_spec "helo".toList := by
  refine ⟨by decide, by decide, ?_⟩
  intro h
  rw [(by decide : (suggest_command "helo".toList).toList = ["help".toList]),
      (by decide : suggest_spec "helo".toList = ["help".toList, "hello".toList])] at h
  exact absurd h (by decide)

/-- C1 (amended): `suggest_command` lower-cases its input; if the lowered
input exactly equals a registered command it returns that command;
otherwise it returns the single best-ranked matching command — a command
whose variant set contains the lowered input, of minimal absolute length
difference among all such commands (first in iteration order among ties) —
or no suggestion when no command matches. -/
theorem suggest_command_returns_best (s : Word) :
    (s.map Char.toLower ∈ COMMANDS → suggest_command s = some (s.map Char.toLower))
  ∧ (s.map Char.toLower ∉ COMMANDS →
      (suggest_command s = none ↔ possible_matches (s.map Char.toLower) = [])
    ∧ ∀ c, suggest_command s = some c →
        c ∈ possible_matches (s.map Char.toLower)
      ∧ ∀ x ∈ possible_matches (s.map Char.toLower),
          distance (s.map Char.toLower) c ≤ distance (s.map Char.toLower) x) := by
  constructor
  · intro h
    simp [suggest_command, h]
  · intro h
    have hs : suggest_command s =
        ((possible_matches (s.map Char.toLower)).insertionSort fun a b =>
          distance (s.map Char.toLower) a ≤ distance (s.map Char.toLower) b).head? := by
      simp [suggest_command, h]
    constructor
    · rw [hs]
      exact insertionSort_head_none (distance (s.map Char.toLower)) _
    · intro c hc
      rw [hs] at hc
      exact insertionSort_head_min (distance (s.map Char.toLower)) _ c hc

/-- Witness for C1 (amended) at the concrete input `"helo"`. -/
theorem suggest_command_returns_best_witness :
    ("helo".toList.map Char.toLower ∉ COMMANDS)
  ∧ (suggest_command "helo".toList = none ↔
      possible_matches ("helo".toList.map Char.toLower) = []) :=
  ⟨by decide, ((suggest_command_returns_best "helo".toList).2 (by decide)).1⟩

/-- C6: `suggest_command` is a total function of its input (the Python body
can raise no exception), and when the lowered input is no registered
command and lies in no registered command's variant set the result is the
empty one, `None` — a valid outcome, not an error. -/
theorem suggest_command_no_match_empty (s : Word) :
    suggest_command s = none ↔
      (s.map Char.toLower ∉ COMMANDS ∧
       ∀ c ∈ COMMANDS, s.map Char.toLower ∉ variants c) := by
  by_cases h : s.map Char.toLower ∈ COMMANDS
  · constructor
    · intro hn
      have hsome : suggest_command s = some (s.map Char.toLower) := by
        simp [suggest_command, h]
      rw [hsome] at hn
      exact Option.noConfusion hn
    · rintro ⟨h1, _⟩
      exact absurd h h1
  · have hs : suggest_command s =
        ((possible_matches (s.map Char.toLower)).insertionSort fun a b =>
          distance (s.map Char.toLower) a ≤ distance (s.map Char.toLower) b).head? := by
      simp [suggest_command, h]
    rw [hs, insertionSort_head_none]
    unfold possible_matches
    rw [List.filter_eq_nil_iff]
    simp [h]

/-- Witness for C6 at the concrete input `"zzzzzz"`, which matches no
registered command. -/
theorem suggest_command_no_match_empty_witness :
    suggest_command "zzzzzz".toList = none :=
  (suggest_command_no_match_empty "zzzzzz".toList).mpr (by decide)

/-- C8: with the registry containing `"add-birthday"`, the input
`"addbirthday"` is one hyphen-deletion away from it, and the suggestion for
`"addbirthday"` is exactly `"add-birthday"`. -/
theorem suggest_addbirthday :
    ("addbirthday".toList : Word) ∈ variants "add-birthday".toList
  ∧ (suggest_command "addbirthday".toList).toList = ["add-birthday".toList] := by
  constructor
  · decide
  · decide

/-- C2: for a February-29 birthday, the candidate in `today`'s year uses
day 28 exactly when that year is not a leap year; a candidate strictly
before `today` is rolled forward one year, using day 29 when the next year
is a leap year and day 28 otherwise; leapness follows the Gregorian rule;
and concretely birthday 29.02.2000 with today 01.04.2024 yields
28.02.2025. -/
theorem feb29_resolution (b today : PyDate)
    (hm : b.month = 2) (hd : b.day = 29) :
    (resolvedCandidate b today =
      if dateLT ⟨today.year, 2, if is_leap_year today.year then 29 else 28⟩ today then
        ⟨today.year + 1, 2, if is_leap_year (today.year + 1) then 29 else 28⟩
      else ⟨today.year, 2, if is_leap_year today.year then 29 else 28⟩)
  ∧ (∀ y, is_leap_year y = true ↔ (y % 4 = 0 ∧ (y % 100 ≠ 0 ∨ y % 400 = 0)))
  ∧ next_congratulation_date ⟨2000, 2, 29⟩ ⟨2024, 4, 1⟩ = ⟨2025, 2, 28⟩ := by
  refine ⟨?_, ?_, by decide⟩
  · have h29 : is_29th_february b = true := by
      simp [is_29th_february, hm, hd]
    by_cases hly : is_leap_year today.year
    · simp [resolvedCandidate, h29, hm, hd, hly]
      split_ifs <;> rfl
    · simp [resolvedCandidate, h29, hm, hd, hly]
      split_ifs <;> rfl
  · intro y
    simp only [is_leap_year, Bool.and_eq_true, beq_iff_eq, Bool.or_eq_true,
      bne_iff_ne, ne_eq]

/-- Witness for C2: birthday 29.02.2000, today 01.03.2023 (not a leap
year); the candidate 28.02.2023 is past, so it rolls to 29.02.2024. -/
theorem feb29_resolution_witness :
    resolvedCandidate ⟨2000, 2, 29⟩ ⟨2023, 3, 1⟩ = ⟨2024, 2, 29⟩ :=
  ((feb29_resolution ⟨2000, 2, 29⟩ ⟨2023, 3, 1⟩ rfl rfl).1).trans (by decide)

/-- C4: for every stored birthday and every reference day, the computed
congratulation date is `>= today`; it is obtained by applying the weekend
adjustment exactly once to the year-resolved candidate, and that pre-shift
candidate is already `>= today` (a shifted date is never re-checked against
the past-rule). -/
theorem next_congratulation_ge_today (b today : PyDate) :
    dateLE today (next_congratulation_date b today)
  ∧ next_congratulation_date b today = weekendAdjust (resolvedCandidate b today)
  ∧ dateLE today (resolvedCandidate b today) :=
  ⟨dateLE_trans (dateLE_resolvedCandidate b today)
     (dateLE_weekendAdjust (resolvedCandidate b today)),
   rfl,
   dateLE_resolvedCandidate b today⟩

/-- C7: `get_upcoming_birthdays` yields exactly the `(name, occurrence)`
pairs of records carrying a birthday whose next occurrence `d` satisfies
`0 <= (d - today).days <= days_ahead`; records without a birthday are
skipped. -/
theorem get_upcoming_birthdays_iff (records : List PyRecord) (days_ahead : Int)
    (today : PyDate) (n : String) (d : PyDate) :
    (n, d) ∈ get_upcoming_birthdays records days_ahead today ↔
      ∃ r ∈ records, r.name = n ∧ ∃ b, r.birthday = some b ∧
        next_congratulation_date b today = d ∧
        0 ≤ dayDiff d today ∧ dayDiff d today ≤ days_ahead := by
  unfold get_upcoming_birthdays
  rw [List.mem_filterMap]
  constructor
  · rintro ⟨r, hr, hfr⟩
    refine ⟨r, hr, ?_⟩
    cases hb : r.birthday with
    | none => rw [hb] at hfr; exact Option.noConfusion hfr
    | some b =>
      rw [hb] at hfr
      simp only at hfr
      split at hfr
      · next hcond =>
        simp only [Option.some.injEq, Prod.mk.injEq] at hfr
        obtain ⟨hn, hd2⟩ := hfr
        subst hn
        subst hd2
        exact ⟨rfl, b, rfl, rfl, hcond.1, hcond.2⟩
      · exact Option.noConfusion hfr
  · rintro ⟨r, hr, rfl, b, hb, rfl, h1, h2⟩
    exact ⟨r, hr, by simp [hb, h1, h2]⟩

/-- C9: validation failures leave stored state unchanged — `edit_phone`
with a valid, present old phone and a malformed new phone raises the phone
validation error with the phone set untouched, and `add_birthday` with a
malformed date string raises the date validation error with the birthday
field untouched. -/
theorem validation_failure_preserves_state (r : PyRecord)
    (old_phone new_phone s : String) :
    (phone_valid old_phone = true → old_phone ∈ r.phones →
       phone_valid new_phone = false →
       edit_phone r old_phone new_phone = (r, some "Invalid phone number"))
  ∧ (strptime_dmY s = none →
       add_birthday r s = (r, some "Invalid date format. Use DD.MM.YYYY")) := by
  constructor
  · intro h1 h2 h3
    unfold edit_phone
    rw [if_neg (by simp [h1]), if_neg (by simp [h2]), if_pos (by simp [h3])]
  · intro h
    unfold add_birthday
    rw [h]

/-- Witness for C9: a record holding the valid phone `"0123456789"`, the
malformed new phone `"12345"` and the malformed date `"31-12-2000"`. -/
theorem validation_failure_preserves_state_witness :
    edit_phone ⟨"Bob", {"0123456789"}, none, none, none⟩ "0123456789" "12345"
      = (⟨"Bob", {"0123456789"}, none, none, none⟩, some "Invalid phone number")
  ∧ add_birthday ⟨"Bob", {"0123456789"}, none, none, none⟩ "31-12-2000"
      = (⟨"Bob", {"0123456789"}, none, none, none⟩,
         some "Invalid date format. Use DD.MM.YYYY") :=
  ⟨(validation_failure_preserves_state _ "0123456789" "12345" "31-12-2000").1
      (by decide) (by decide) (by decide),
   (validation_failure_preserves_state
      ⟨"Bob", {"0123456789"}, none, none, none⟩ "0123456789" "12345"
      "31-12-2000").2 (by decide)⟩

/-- C10: `edit_phone(p, p)` with a valid phone `p` already present succeeds
(no error) and removes `p` from the phone set — the `add` of the new phone
is a no-op on the set and the subsequent `remove` of the old phone takes
`p` out. -/
theorem edit_phone_same_removes (r : PyRecord) (p : String)
    (hv : phone_valid p = true) (hp : p ∈ r.phones) :
    edit_phone r p p = ({ r with phones := r.phones.erase p }, none)
  ∧ p ∉ (edit_phone r p p).1.phones := by
  have h : edit_phone r p p =
      ({ r with phones := (insert p r.phones).erase p }, none) := by
    unfold edit_phone
    rw [if_neg (by simp [hv]), if_neg (by simp [hp]), if_neg (by simp [hv])]
  have hins : insert p r.phones = r.phones := Finset.insert_eq_self.mpr hp
  refine ⟨by rw [h, hins], ?_⟩
  rw [h]
  simp [Finset.not_mem_erase]

/-- Witness for C10: the phone `"0123456789"`, present, edited to itself,
is gone afterwards. -/
theorem edit_phone_same_removes_witness :
    "0123456789" ∉
      (edit_phone ⟨"Ann", {"0123456789"}, none, none, none⟩
        "0123456789" "0123456789").1.phones :=
  (edit_phone_same_removes ⟨"Ann", {"0123456789"}, none, none, none⟩
    "0123456789" (by decide) (by decide)).2
